import Mathlib

/-
Verification of the email-attachment ETL pipeline
(etl/parse_email_save_attachment/parse_messages.py).

The script is a linear pipeline over an S3-like object store:
get_most_recent_file (Locator) -> get_file_content (Fetcher) ->
check_if_hash_has_been_seen (Deduplicator) -> parse_email_from_s3
(Validator/Extractor) -> upload_attachments_to_s3 (Publisher).

Modelling conventions:
- Python strings are modelled as `List Char` (abbreviated `Str`); Python
  bytes as `List Nat` (each entry < 256 where it matters).
- The object store is modelled as the list of object keys it contains
  (plus last-modified stamps where the code reads them); boto3 listing
  calls become pure list operations over that model.
- Each Python function becomes a Lean function of the same name acting
  on the modelled inputs; process side effects (uploads, deletes) become
  explicit action values.
-/

/-- Python strings are finite sequences of code points; we model them as
lists of Lean characters. -/
abbrev Str := List Char

namespace ParseMessages

/-- Tests whether the list `p` is an initial segment of `s`, modelling
Python `str.startswith` and the S3 listing parameter that restricts a
listing to keys beginning with a given string. -/
def hasPfx : Str → Str → Bool
  | [], _ => true
  | _ :: _, [] => false
  | a :: as, b :: bs => a == b && hasPfx as bs

/-- Tests whether `needle` occurs contiguously inside `hay`, modelling the
Python substring operator `needle in hay`. -/
def containsSub (needle : Str) : Str → Bool
  | [] => needle.isEmpty
  | c :: cs => hasPfx needle (c :: cs) || containsSub needle cs

/-- Error outcomes of the pipeline. `notFound` models the Python
`FileNotFoundError` raised by `get_most_recent_file`; `decodeErr` models
the `UnicodeDecodeError` raised by `bytes.decode` in `get_file_content`. -/
inductive PipeErr where
  | notFound
  | decodeErr
deriving DecidableEq, Repr

/-- Model of one S3 listing entry: its key and its LastModified stamp
(only the order on stamps matters, so we model them as naturals). -/
structure S3Obj where
  key : Str
  lastModified : Nat
deriving DecidableEq, Repr

/-- Stable descending insertion by LastModified: an element is placed
after every already-placed element whose stamp is at least as large.
Combined with the left fold below this realises the behaviour Python
guarantees for `sorted(files, key=itemgetter("LastModified"),
reverse=True)`: descending order, and elements with equal stamps keep
their original relative order. -/
def insertDesc (x : S3Obj) : List S3Obj → List S3Obj
  | [] => [x]
  | y :: ys => if x.lastModified ≤ y.lastModified then y :: insertDesc x ys else x :: y :: ys

/-- Stable sort of a listing by LastModified, descending (model of the
`sorted(..., reverse=True)` call in `get_most_recent_file`). -/
def sortDescLM (l : List S3Obj) : List S3Obj :=
  l.foldl (fun acc x => insertDesc x acc) []

/-- Model of `get_most_recent_file`: `files` is the full paginated
listing under the read prefix, in listing order.  Raises
`FileNotFoundError` when the listing is empty, otherwise sorts by
LastModified descending and returns the key of the first entry. -/
def get_most_recent_file (files : List S3Obj) : Except PipeErr Str :=
  if files = [] then .error .notFound
  else
    match sortDescLM files with
    | [] => .error .notFound
    | o :: _ => .ok o.key

/-- Model of `check_if_hash_has_been_seen`: `keys` is the full paginated
listing of object keys under the given prefix; the function scans it for
one containing the first 8 characters of the hash, stopping at the first
match, and mutates nothing. -/
def check_if_hash_has_been_seen (hsh : Str) (keys : List Str) : Bool :=
  let short_hash := hsh.take 8
  keys.any (fun k => containsSub short_hash k)

/-- Model of one MIME body part as produced by the Python email parser:
whether `is_attachment()` holds, the `get_filename()` result, the decoded
payload bytes, and the nested sub-parts (non-empty only for multipart
container parts). -/
inductive EmailPart where
  | part (attached : Bool) (fname : Option Str) (payload : List Nat) (children : List EmailPart)

/-- Whether `is_attachment()` holds for the part. -/
def EmailPart.attached : EmailPart → Bool
  | .part a _ _ _ => a

/-- The `get_filename()` result of the part. -/
def EmailPart.fname : EmailPart → Option Str
  | .part _ f _ _ => f

/-- The decoded (`get_payload(decode=True)`) bytes of the part. -/
def EmailPart.payload : EmailPart → List Nat
  | .part _ _ p _ => p

/-- The nested sub-parts of the part. -/
def EmailPart.children : EmailPart → List EmailPart
  | .part _ _ _ c => c

/-- Model of the parsed email message: the header list in message order,
whether `is_multipart()` holds, and the immediate top-level parts that
`iter_parts()` yields. -/
structure EmailMessage where
  headers : List (Str × Str)
  multipart : Bool
  parts : List EmailPart

/-- Case-folded string, for the case-insensitive header-name matching of
the Python email API. -/
def lowerStr (s : Str) : Str := s.map Char.toLower

/-- Model of `parsed_email.get(name)`: the value of the first header
whose name matches case-insensitively, or none. -/
def getHeader (m : EmailMessage) (name : Str) : Option Str :=
  (m.headers.find? (fun hv => lowerStr hv.1 == lowerStr name)).map Prod.snd

/-- The header/required-substring table `headers_to_check` of
`parse_email_from_s3`, in the dict's insertion (= iteration) order. -/
def headers_to_check : List (Str × Str) :=
  [("X-SES-Spam-Verdict".data, "PASS".data),
   ("X-SES-Virus-Verdict".data, "PASS".data),
   ("Received-SPF".data, "pass".data),
   ("X-OriginatorOrg".data, "austintexas.gov".data)]

/-- Whether a header check fails for `m`: the header is absent, or its
value does not contain the required substring. -/
def headerFails (m : EmailMessage) (hc : Str × Str) : Bool :=
  match getHeader m hc.1 with
  | none => true
  | some v => !containsSub hc.2 v

/-- The header-validation loop of `parse_email_from_s3`: walks the check
table in order and returns the first failing header together with its
actual value (none when absent), or none when every check passes. -/
def check_headers (m : EmailMessage) : List (Str × Str) → Option (Str × Option Str)
  | [] => none
  | (hname, expected) :: rest =>
    match getHeader m hname with
    | none => some (hname, none)
    | some actual =>
      if containsSub expected actual then check_headers m rest
      else some (hname, some actual)

/-- Writing a named file into the staging directory, modelled as an
association list in write order: `open(filepath, "wb")` overwrites an
existing file of the same name and otherwise appends a new entry. -/
def writeFile (d : List (Str × List Nat)) (name : Str) (content : List Nat) :
    List (Str × List Nat) :=
  if d.any (fun e => e.1 == name) then
    d.map (fun e => if e.1 == name then (name, content) else e)
  else d ++ [(name, content)]

/-- Body of the extraction loop of `parse_email_from_s3`: a top-level
part that is an attachment with a truthy (present and non-empty)
filename has its decoded payload written under that filename into the
staging directory `acc`; every other part is skipped. -/
def extractStep (acc : List (Str × List Nat)) (p : EmailPart) : List (Str × List Nat) :=
  if p.attached then
    match p.fname with
    | some f => if f.isEmpty then acc else writeFile acc f p.payload
    | none => acc
  else acc

/-- The extraction loop of `parse_email_from_s3` over the top-level parts
yielded by `iter_parts()`, starting from the fresh (empty) staging
directory. -/
def extract_attachments (ps : List EmailPart) : List (Str × List Nat) :=
  ps.foldl extractStep []

/-- Outcome of `parse_email_from_s3`: either the process exits during
header validation (carrying the diagnostic's header name and actual
value, printed before `quit()`), or it returns a staging directory of
extracted attachment files. -/
inductive ParseResult where
  | exited (header : Str) (actual : Option Str)
  | staged (files : List (Str × List Nat))
deriving DecidableEq, Repr

/-- Model of `parse_email_from_s3`: validate the header table in order,
exiting at the first failure; otherwise create a fresh staging directory
and, when the message is multipart, extract the top-level attachment
parts into it (a non-multipart message yields the empty directory). -/
def parse_email_from_s3 (m : EmailMessage) : ParseResult :=
  match check_headers m headers_to_check with
  | some d => .exited d.1 d.2
  | none => .staged (if m.multipart then extract_attachments m.parts else [])

/-- Concrete message whose Received-SPF header lacks the substring pass
while the two earlier checks hold: used to witness C3. -/
def mC3 : EmailMessage :=
  ⟨[("X-SES-Spam-Verdict".data, "verdict is PASS".data),
    ("X-SES-Virus-Verdict".data, "PASS".data),
    ("Received-SPF".data, "softfail".data),
    ("X-OriginatorOrg".data, "austintexas.gov".data)], true, []⟩

/-- Whether a part is saved by the extraction loop: an attachment with a
present, non-empty filename. -/
def isRealAttachment (p : EmailPart) : Bool :=
  p.attached &&
    (match p.fname with
     | some f => !f.isEmpty
     | none => false)

/-- The (filename, payload) pairs of the parts the extraction loop saves,
in part order. -/
def attEntries : List EmailPart → List (Str × List Nat)
  | [] => []
  | p :: ps =>
    if p.attached then
      match p.fname with
      | some f => if f.isEmpty then attEntries ps else (f, p.payload) :: attEntries ps
      | none => attEntries ps
    else attEntries ps

/-- Concrete three-part multipart message (text body, two attachments)
used to witness C7. -/
def mC7 : EmailMessage :=
  ⟨[("X-SES-Spam-Verdict".data, "PASS".data),
    ("X-SES-Virus-Verdict".data, "PASS".data),
    ("Received-SPF".data, "pass (spfCheck ok)".data),
    ("X-OriginatorOrg".data, "austintexas.gov".data)], true,
   [.part false none [66, 111] [],
    .part true (some "report.xlsx".data) [1, 2, 3] [],
    .part true (some "notes.csv".data) [4, 5] []]⟩

/-- Concrete message whose only attachment sits inside a nested multipart
container part: used to witness C9 (nothing is staged for it). -/
def mC9 : EmailMessage :=
  ⟨[("X-SES-Spam-Verdict".data, "PASS".data),
    ("X-SES-Virus-Verdict".data, "PASS".data),
    ("Received-SPF".data, "pass".data),
    ("X-OriginatorOrg".data, "austintexas.gov".data)], true,
   [.part false none []
      [.part true (some "inner.xlsx".data) [9, 9] []]]⟩

/-- Lexicographic comparison on code points, modelling Python string
ordering as used by `sorted` on the globbed paths. -/
def strLeB : Str → Str → Bool
  | [], _ => true
  | _ :: _, [] => false
  | a :: as, b :: bs =>
    if a.toNat < b.toNat then true
    else if b.toNat < a.toNat then false
    else strLeB as bs

/-- Stable ascending insertion for Python `sorted` on strings. -/
def insertAsc (x : Str) : List Str → List Str
  | [] => [x]
  | y :: ys => if strLeB y x then y :: insertAsc x ys else x :: y :: ys

/-- Model of Python `sorted` on a list of strings (ascending, stable). -/
def sortStrAsc (l : List Str) : List Str :=
  l.foldl (fun acc x => insertAsc x acc) []

/-- Model of the two-argument `os.path.join` as used throughout the
script: an absolute second component replaces the first, a first
component already ending in the separator is extended directly, and
otherwise a separator is inserted. -/
def joinPath (a b : Str) : Str :=
  if hasPfx ['/'] b then b
  else if a.isEmpty then b
  else if a.getLast? = some '/' then a ++ b
  else a ++ '/' :: b

/-- Whether a directory entry name matches the glob pattern used for the
promotion scan: it ends in .xlsx and, per glob's hidden-file rule for a
pattern not starting with a dot, does not itself start with a dot. -/
def globXlsx (name : Str) : Bool :=
  match name with
  | [] => false
  | c :: _ => c != '.' && List.isSuffixOf ".xlsx".data name

/-- The hardcoded listing prefix whose objects the Publisher deletes
before promoting a new most-recent-data file. -/
def mrdPfx : Str := "attachments/most_recent_data".data

/-- The fixed key `os.path.join("attachments", "most_recent_data.xlsx")`
the Publisher promotes the selected file to. -/
def mrdKey : Str := joinPath "attachments".data "most_recent_data.xlsx".data

/-- The `write_prefix` constant of `main`. -/
def writePfxC : Str := "attachments/".data

/-- The decimal digit character of `n % 10`. -/
def digitChar (n : Nat) : Char :=
  match n % 10 with
  | 0 => '0' | 1 => '1' | 2 => '2' | 3 => '3' | 4 => '4'
  | 5 => '5' | 6 => '6' | 7 => '7' | 8 => '8' | _ => '9'

/-- Decimal digit string of a natural number (most significant first). -/
def natToChars (n : Nat) : Str :=
  if _h : n < 10 then [digitChar n]
  else natToChars (n / 10) ++ [digitChar n]
termination_by n
decreasing_by exact Nat.div_lt_self (by omega) (by omega)

/-- Zero-padded decimal rendering to at least `w` characters, as strftime
produces for its numeric directives. -/
def padNum (w n : Nat) : Str :=
  List.replicate (w - (natToChars n).length) '0' ++ natToChars n

/-- Model of `datetime.now(pytz.utc).strftime("%Y%m%d-%H%M%S_UTC")` for a
given UTC instant broken into its six fields. -/
def formatUTC (y mo d hh mi s : Nat) : Str :=
  padNum 4 y ++ padNum 2 mo ++ padNum 2 d ++ "-".data ++
    padNum 2 hh ++ padNum 2 mi ++ padNum 2 s ++ "_UTC".data

/-- One file of the local staging directory, as seen by the Publisher:
the directory components of its location relative to the staging root
(empty for a file directly in the root) and its filename. -/
structure FileEntry where
  dirParts : List Str
  name : Str
deriving DecidableEq, Repr

/-- One storage side effect of the Publisher: deleting the object at a
key, or uploading a local file to a key. -/
inductive S3Action where
  | delete (key : Str)
  | upload (key : Str) (src : FileEntry)
deriving DecidableEq, Repr

/-- The glob-and-promote half of `upload_attachments_to_s3`: list the
root-level entries matching the xlsx glob, sort them, and if any exist
delete every bucket object whose key starts with
attachments/most_recent_data and upload the first sorted file to the
fixed most-recent-data key. `bucketKeys` is the bucket's full key
listing, from which the delete loop's prefix-filtered listing is taken. -/
def promoActions (bucketKeys : List Str) (location : List FileEntry) : List S3Action :=
  match sortStrAsc ((location.filter (fun e => e.dirParts.isEmpty && globXlsx e.name)).map
    (fun e => e.name)) with
  | [] => []
  | data_file :: _ =>
    ((bucketKeys.filter (fun k => hasPfx mrdPfx k)).map S3Action.delete) ++
      [S3Action.upload mrdKey ⟨[], data_file⟩]

/-- The walk-and-upload half of `upload_attachments_to_s3`: every file of
the full recursive walk of the staging directory is uploaded to
`os.path.join(new_prefix, file)`, where `file` is its bare filename (the
walk's directory component is not part of the key). -/
def walkUploads (pfx : Str) (location : List FileEntry) (hsh ts : Str) : List S3Action :=
  location.map (fun e => S3Action.upload (joinPath (joinPath pfx (ts ++ '-' :: hsh.take 8)) e.name) e)

/-- Model of `upload_attachments_to_s3`: the promotion actions followed
by the per-file uploads into the new timestamp-and-hash folder.  `ts` is
the strftime rendering of the current UTC time. -/
def upload_attachments_to_s3 (bucketKeys : List Str) (pfx : Str) (location : List FileEntry)
    (hsh ts : Str) : List S3Action :=
  promoActions bucketKeys location ++ walkUploads pfx location hsh ts

/-- Concrete staging directory holding root files b.xlsx and a.xlsx,
used to witness C1. -/
def locC1 : List FileEntry := [⟨[], "b.xlsx".data⟩, ⟨[], "a.xlsx".data⟩]

/-- Witness for C10: a staging directory holding a root csv and a nested
xlsx (which the non-recursive glob does not see). -/
def locC10 : List FileEntry := [⟨[], "data.csv".data⟩, ⟨["sub".data], "deep.xlsx".data⟩]

/-- Right rotation of a 32-bit word, for the SHA-256 round functions. -/
def rotr32 (n x : Nat) : Nat := ((x >>> n) ||| (x <<< (32 - n))) % 4294967296

/-- The sigma-0 message-schedule function of SHA-256. -/
def smallSigma0 (x : Nat) : Nat := (rotr32 7 x) ^^^ (rotr32 18 x) ^^^ (x >>> 3)

/-- The sigma-1 message-schedule function of SHA-256. -/
def smallSigma1 (x : Nat) : Nat := (rotr32 17 x) ^^^ (rotr32 19 x) ^^^ (x >>> 10)

/-- The Sigma-0 round function of SHA-256. -/
def bigSigma0 (x : Nat) : Nat := (rotr32 2 x) ^^^ (rotr32 13 x) ^^^ (rotr32 22 x)

/-- The Sigma-1 round function of SHA-256. -/
def bigSigma1 (x : Nat) : Nat := (rotr32 6 x) ^^^ (rotr32 11 x) ^^^ (rotr32 25 x)

/-- The 64 SHA-256 round constants. -/
def sha256K : List Nat :=
  [1116352408, 1899447441, 3049323471, 3921009573, 961987163, 1508970993,
   2453635748, 2870763221, 3624381080, 310598401, 607225278, 1426881987,
   1925078388, 2162078206, 2614888103, 3248222580, 3835390401, 4022224774,
   264347078, 604807628, 770255983, 1249150122, 1555081692, 1996064986,
   2554220882, 2821834349, 2952996808, 3210313671, 3336571891, 3584528711,
   113926993, 338241895, 666307205, 773529912, 1294757372, 1396182291,
   1695183700, 1986661051, 2177026350, 2456956037, 2730485921, 2820302411,
   3259730800, 3345764771, 3516065817, 3600352804, 4094571909, 275423344,
   430227734, 506948616, 659060556, 883997877, 958139571, 1322822218,
   1537002063, 1747873779, 1955562222, 2024104815, 2227730452, 2361852424,
   2428436474, 2756734187, 3204031479, 3329325298]

/-- The SHA-256 initial hash state. -/
def sha256H0 : List Nat :=
  [1779033703, 3144134277, 1013904242, 2773480762,
   1359893119, 2600822924, 528734635, 1541459225]

/-- Big-endian 8-byte rendering of a natural number (the SHA-256 length
field). -/
def be8 (n : Nat) : List Nat :=
  [(n >>> 56) % 256, (n >>> 48) % 256, (n >>> 40) % 256, (n >>> 32) % 256,
   (n >>> 24) % 256, (n >>> 16) % 256, (n >>> 8) % 256, n % 256]

/-- Big-endian 4-byte rendering of a 32-bit word. -/
def be4 (n : Nat) : List Nat :=
  [(n >>> 24) % 256, (n >>> 16) % 256, (n >>> 8) % 256, n % 256]

/-- SHA-256 message padding: append 0x80, zero bytes to 56 mod 64, and
the 8-byte big-endian bit length. -/
def padMsg (msg : List Nat) : List Nat :=
  msg ++ [0x80] ++ List.replicate ((55 + 64 - (msg.length % 64)) % 64) 0 ++ be8 (msg.length * 8)

/-- Group bytes into big-endian 32-bit words. -/
def toWords : List Nat → List Nat
  | b0 :: b1 :: b2 :: b3 :: rest => (((b0 * 256 + b1) * 256 + b2) * 256 + b3) :: toWords rest
  | _ => []

/-- One extension step of the SHA-256 message schedule. -/
def schedStep (acc : List Nat) : List Nat :=
  acc ++ [(smallSigma1 (acc.getD (acc.length - 2) 0) + acc.getD (acc.length - 7) 0 +
    smallSigma0 (acc.getD (acc.length - 15) 0) + acc.getD (acc.length - 16) 0) % 4294967296]

/-- The full 64-word SHA-256 message schedule of one block. -/
def sched64 (ws : List Nat) : List Nat :=
  (List.range 48).foldl (fun acc _ => schedStep acc) ws

/-- One SHA-256 compression round, transforming the 8-word working state
with one schedule word and round constant. -/
def compressStep (st : List Nat) (kw : Nat × Nat) : List Nat :=
  match st with
  | [a, b, c, d, e, f, g, h] =>
    let ch := (e &&& f) ^^^ ((e ^^^ 0xffffffff) &&& g)
    let maj := (a &&& b) ^^^ (a &&& c) ^^^ (b &&& c)
    let t1 := (h + bigSigma1 e + ch + kw.2 + kw.1) % 4294967296
    let t2 := (bigSigma0 a + maj) % 4294967296
    [(t1 + t2) % 4294967296, a, b, c, (d + t1) % 4294967296, e, f, g]
  | other => other

/-- SHA-256 compression of one 64-byte block into the hash state. -/
def compressBlock (h : List Nat) (block : List Nat) : List Nat :=
  let st := ((sched64 (toWords block)).zip sha256K).foldl compressStep h
  (h.zip st).map (fun p => (p.1 + p.2) % 4294967296)

/-- Split a byte list into 64-byte chunks. -/
def chunks (l : List Nat) : List (List Nat) :=
  if _hl : l = [] then [] else l.take 64 :: chunks (l.drop 64)
termination_by l.length
decreasing_by
  simp only [List.length_drop]
  have hlen : l.length ≠ 0 := fun hz => _hl (List.eq_nil_of_length_eq_zero hz)
  omega

/-- The SHA-256 digest (32 bytes) of a byte string, modelling
`hashlib.sha256(content).digest()`. -/
def sha256bytes (msg : List Nat) : List Nat :=
  (((chunks (padMsg msg)).foldl compressBlock sha256H0).map be4).flatten

/-- Lower-case hexadecimal digit of `n % 16`. -/
def hexDigitChar (n : Nat) : Char :=
  match n % 16 with
  | 0 => '0' | 1 => '1' | 2 => '2' | 3 => '3' | 4 => '4' | 5 => '5' | 6 => '6' | 7 => '7'
  | 8 => '8' | 9 => '9' | 10 => 'a' | 11 => 'b' | 12 => 'c' | 13 => 'd' | 14 => 'e' | _ => 'f'

/-- Two-character hexadecimal rendering of a byte. -/
def byteHex (b : Nat) : List Char := [hexDigitChar (b / 16), hexDigitChar b]

/-- The SHA-256 hex digest of a byte string, modelling
`hashlib.sha256(content).hexdigest()`.  (Checked during development
against the standard test vectors for the empty string and for abc.) -/
def sha256hex (msg : List Nat) : Str := ((sha256bytes msg).map byteHex).flatten

/-- Strict UTF-8 decoding of a byte list into the list of code points,
modelling `bytes.decode("utf-8")`: rejects truncated sequences, stray or
missing continuation bytes, overlong encodings, surrogate code points
and code points beyond 0x10FFFF. -/
def utf8Step (b : Nat) (rest : List Nat) (rec : List Nat → Option (List Nat)) :
    Option (List Nat) :=
  if b < 0x80 then (rec rest).map (b :: ·)
  else if b < 0xC2 then none
  else if b < 0xE0 then
    if rest.length < 1 then none
    else if 0x80 ≤ rest.getD 0 0 ∧ rest.getD 0 0 < 0xC0 then
      (rec (rest.drop 1)).map (((b - 0xC0) * 0x40 + (rest.getD 0 0 - 0x80)) :: ·)
    else none
  else if b < 0xF0 then
    if rest.length < 2 then none
    else if (0x80 ≤ rest.getD 0 0 ∧ rest.getD 0 0 < 0xC0) ∧
        (0x80 ≤ rest.getD 1 0 ∧ rest.getD 1 0 < 0xC0) then
      if (b - 0xE0) * 0x1000 + (rest.getD 0 0 - 0x80) * 0x40 + (rest.getD 1 0 - 0x80) <
          0x800 then none
      else if 0xD800 ≤ (b - 0xE0) * 0x1000 + (rest.getD 0 0 - 0x80) * 0x40 +
          (rest.getD 1 0 - 0x80) ∧
          (b - 0xE0) * 0x1000 + (rest.getD 0 0 - 0x80) * 0x40 + (rest.getD 1 0 - 0x80) ≤
            0xDFFF then none
      else (rec (rest.drop 2)).map
        (((b - 0xE0) * 0x1000 + (rest.getD 0 0 - 0x80) * 0x40 + (rest.getD 1 0 - 0x80)) :: ·)
    else none
  else if b < 0xF5 then
    if rest.length < 3 then none
    else if (0x80 ≤ rest.getD 0 0 ∧ rest.getD 0 0 < 0xC0) ∧
        (0x80 ≤ rest.getD 1 0 ∧ rest.getD 1 0 < 0xC0) ∧
        (0x80 ≤ rest.getD 2 0 ∧ rest.getD 2 0 < 0xC0) then
      if (b - 0xF0) * 0x40000 + (rest.getD 0 0 - 0x80) * 0x1000 +
          (rest.getD 1 0 - 0x80) * 0x40 + (rest.getD 2 0 - 0x80) < 0x10000 then none
      else if 0x10FFFF < (b - 0xF0) * 0x40000 + (rest.getD 0 0 - 0x80) * 0x1000 +
          (rest.getD 1 0 - 0x80) * 0x40 + (rest.getD 2 0 - 0x80) then none
      else (rec (rest.drop 3)).map
        (((b - 0xF0) * 0x40000 + (rest.getD 0 0 - 0x80) * 0x1000 +
          (rest.getD 1 0 - 0x80) * 0x40 + (rest.getD 2 0 - 0x80)) :: ·)
    else none
  else none

def utf8DecodeF : Nat → List Nat → Option (List Nat)
  | _, [] => some []
  | 0, _ :: _ => none
  | fuel + 1, b :: rest => utf8Step b rest (utf8DecodeF fuel)

/-- Strict UTF-8 decoding entry point: each sequence consumes at least
one byte, so a fuel of the byte count always suffices. -/
def utf8Decode (bs : List Nat) : Option (List Nat) := utf8DecodeF bs.length bs

/-- A Unicode scalar value: in range and not a surrogate.  This is the
specification-side notion of which code points a UTF-8 byte string may
encode. -/
def ValidCp (n : Nat) : Prop := n < 0x110000 ∧ (n < 0xD800 ∨ 0xDFFF < n)

/-- The standard UTF-8 encoding of one Unicode scalar value,
specification-side counterpart used to characterise valid UTF-8 input. -/
def encodeCp (n : Nat) : List Nat :=
  if n < 0x80 then [n]
  else if n < 0x800 then [0xC0 + n / 0x40, 0x80 + n % 0x40]
  else if n < 0x10000 then
    [0xE0 + n / 0x1000, 0x80 + (n / 0x40) % 0x40, 0x80 + n % 0x40]
  else
    [0xF0 + n / 0x40000, 0x80 + (n / 0x1000) % 0x40, 0x80 + (n / 0x40) % 0x40, 0x80 + n % 0x40]

/-- The standard UTF-8 encoding of a code-point string. -/
def utf8Encode (s : List Nat) : List Nat := (s.map encodeCp).flatten

/-- Model of `get_file_content` applied to the fetched raw bytes: the
SHA-256 hex digest is computed over the raw bytes, then the bytes are
decoded as UTF-8; a decode failure raises (UnicodeDecodeError), and on
success the decoded text is returned together with the digest. -/
def get_file_content (raw : List Nat) : Except PipeErr (List Nat × Str) :=
  match utf8Decode raw with
  | some content => .ok (content, sha256hex raw)
  | none => .error .decodeErr

/-- Model of an S3 listing restricted to a key prefix. -/
def listKeys (keys : List Str) (p : Str) : List Str := keys.filter (fun k => hasPfx p k)

/-- Effect of one Publisher action on the bucket's key set: a delete
removes the key, an upload creates the key (put overwrites content, so
an existing key stays listed once). -/
def applyAction (keys : List Str) : S3Action → List Str
  | .delete k => keys.filter (fun k2 => !(k2 == k))
  | .upload k _ => if k ∈ keys then keys else keys ++ [k]

/-- Effect of a sequence of Publisher actions, applied in order. -/
def applyActions (keys : List Str) (acts : List S3Action) : List Str :=
  acts.foldl applyAction keys

/-- The staging directory produced by extraction, as Publisher input:
every extracted file sits directly in the staging root. -/
def stagingEntries (files : List (Str × List Nat)) : List FileEntry :=
  files.map (fun fc => ⟨[], fc.1⟩)

/-- Outcome of one run of the main pipeline slice on a fetched email:
stopped at the duplicate-hash check, exited during header validation, or
completed with the new bucket key set and the extracted files. -/
inductive RunOutcome where
  | duplicate
  | invalid (header : Str) (actual : Option Str)
  | done (keys2 : List Str) (files : List (Str × List Nat))
deriving DecidableEq, Repr

/-- Model of the slice of `main` after the content fetch: the dedup
check against the listing under the write prefix, then header validation
and extraction, then publishing.  `hsh` is the content hash of the
fetched email and `ts` the strftime timestamp at publish time. -/
def main_run (bucketKeys : List Str) (msg : EmailMessage) (hsh ts : Str) : RunOutcome :=
  if check_if_hash_has_been_seen hsh (listKeys bucketKeys writePfxC) then .duplicate
  else
    match parse_email_from_s3 msg with
    | .exited hname actual => .invalid hname actual
    | .staged files =>
      .done (applyActions bucketKeys
        (upload_attachments_to_s3 bucketKeys writePfxC (stagingEntries files) hsh ts)) files

/-- Passing-headers multipart message with no attachment parts, the
counterexample input for the replay claim. -/
def msgC8empty : EmailMessage :=
  ⟨[("X-SES-Spam-Verdict".data, "PASS".data),
    ("X-SES-Virus-Verdict".data, "PASS".data),
    ("Received-SPF".data, "pass".data),
    ("X-OriginatorOrg".data, "austintexas.gov".data)], true, []⟩

/-- Passing-headers message with one xlsx attachment, used to witness the
amended C8. -/
def msgC8att : EmailMessage :=
  ⟨[("X-SES-Spam-Verdict".data, "PASS".data),
    ("X-SES-Virus-Verdict".data, "PASS".data),
    ("Received-SPF".data, "pass".data),
    ("X-OriginatorOrg".data, "austintexas.gov".data)], true,
   [.part true (some "report.xlsx".data) [1, 2, 3] []]⟩

/-- The bucket contents after the first run on `msgC8att`. -/
def keysC8 : List Str :=
  ["attachments/most_recent_data.xlsx".data,
   "attachments/20240101-000000_UTC-01234567/report.xlsx".data]

/-- The staged files of the first run on `msgC8att`. -/
def filesC8 : List (Str × List Nat) := [("report.xlsx".data, [1, 2, 3])]

theorem hasPfx_iff (p s : Str) : hasPfx p s = true ↔ ∃ t, s = p ++ t := by
  induction p generalizing s with
  | nil => simp [hasPfx]
  | cons a as ih =>
    cases s with
    | nil => simp [hasPfx]
    | cons b bs =>
      simp only [hasPfx, Bool.and_eq_true, beq_iff_eq, ih]
      constructor
      · rintro ⟨rfl, t, rfl⟩; exact ⟨t, rfl⟩
      · rintro ⟨t, ht⟩
        cases ht
        exact ⟨rfl, t, rfl⟩

theorem containsSub_iff (n s : Str) :
    containsSub n s = true ↔ ∃ u v, s = u ++ n ++ v := by
  induction s with
  | nil =>
    simp only [containsSub, List.isEmpty_iff]
    constructor
    · rintro rfl; exact ⟨[], [], rfl⟩
    · rintro ⟨u, v, h⟩
      have h2 := List.append_eq_nil.mp h.symm
      exact (List.append_eq_nil.mp h2.1).2
  | cons c cs ih =>
    simp only [containsSub, Bool.or_eq_true, hasPfx_iff, ih]
    constructor
    · rintro (⟨t, ht⟩ | ⟨u, v, huv⟩)
      · exact ⟨[], t, by simp [ht]⟩
      · exact ⟨c :: u, v, by simp [huv]⟩
    · rintro ⟨u, v, huv⟩
      cases u with
      | nil => exact Or.inl ⟨v, by simpa using huv⟩
      | cons x xs =>
        simp only [List.cons_append, List.cons.injEq] at huv
        exact Or.inr ⟨xs, v, huv.2⟩

theorem sortDescLM_head (l : List S3Obj) (hne : l ≠ []) :
    ∃ l1 o l2, l = l1 ++ o :: l2 ∧ (sortDescLM l).head? = some o ∧
      (∀ y ∈ l1, y.lastModified < o.lastModified) ∧
      (∀ y ∈ l2, y.lastModified ≤ o.lastModified) := by
  induction l using List.reverseRecOn with
  | nil => exact absurd rfl hne
  | append_singleton l x ih =>
    rcases eq_or_ne l [] with rfl | hl
    · exact ⟨[], x, [], by simp [sortDescLM, insertDesc]⟩
    · obtain ⟨l1, o, l2, hsplit, hhead, hl1, hl2⟩ := ih hl
      have hfold : sortDescLM (l ++ [x]) = insertDesc x (sortDescLM l) := by
        simp [sortDescLM, List.foldl_append]
      obtain ⟨rest, hrest⟩ : ∃ rest, sortDescLM l = o :: rest := by
        cases h : sortDescLM l with
        | nil => simp [h] at hhead
        | cons a as => rw [h] at hhead; exact ⟨as, by simpa using congrArg (Option.getD · o) hhead⟩
      by_cases hle : x.lastModified ≤ o.lastModified
      · refine ⟨l1, o, l2 ++ [x], by simp [hsplit], ?_, hl1, ?_⟩
        · rw [hfold, hrest]; simp [insertDesc, hle]
        · intro y hy
          rcases List.mem_append.mp hy with hy | hy
          · exact hl2 y hy
          · simp at hy; subst hy; exact hle
      · push_neg at hle
        refine ⟨l, x, [], by simp, ?_, ?_, by simp⟩
        · rw [hfold, hrest]; simp [insertDesc, not_le.mpr hle]
        · intro y hy
          rw [hsplit] at hy
          rcases List.mem_append.mp hy with hy | hy
          · exact lt_trans (hl1 y hy) hle
          · rcases List.mem_cons.mp hy with rfl | hy
            · exact hle
            · exact lt_of_le_of_lt (hl2 y hy) hle

/-- C5: on a non-empty listing the Locator returns the key of the object
with the maximum LastModified stamp, and among objects sharing that
maximum it picks the first one in listing order; on an empty listing it
fails with the not-found error. -/
theorem C5_locator_first_max (files : List S3Obj) :
    (files = [] → get_most_recent_file files = .error .notFound) ∧
    (files ≠ [] →
      ∃ l1 o l2, files = l1 ++ o :: l2 ∧
        get_most_recent_file files = .ok o.key ∧
        (∀ y ∈ l1, y.lastModified < o.lastModified) ∧
        (∀ y ∈ l2, y.lastModified ≤ o.lastModified)) := by
  constructor
  · rintro rfl; rfl
  · intro hne
    obtain ⟨l1, o, l2, hsplit, hhead, hl1, hl2⟩ := sortDescLM_head files hne
    refine ⟨l1, o, l2, hsplit, ?_, hl1, hl2⟩
    obtain ⟨rest, hrest⟩ : ∃ rest, sortDescLM files = o :: rest := by
      cases h : sortDescLM files with
      | nil => simp [h] at hhead
      | cons a as => rw [h] at hhead; exact ⟨as, by simpa using congrArg (Option.getD · o) hhead⟩
    simp [get_most_recent_file, hne, hrest]

/-- Witness for C5 at a concrete listing with a tie on the maximum stamp:
the listing b(5), a(7), c(7) yields key a (first of the two maxima in
listing order). -/
theorem C5_locator_first_max_witness :
    ([⟨"b".data, 5⟩, ⟨"a".data, 7⟩, ⟨"c".data, 7⟩] : List S3Obj) ≠ [] ∧
    (∃ l1 o l2,
      ([⟨"b".data, 5⟩, ⟨"a".data, 7⟩, ⟨"c".data, 7⟩] : List S3Obj) = l1 ++ o :: l2 ∧
      get_most_recent_file [⟨"b".data, 5⟩, ⟨"a".data, 7⟩, ⟨"c".data, 7⟩] = .ok o.key ∧
      (∀ y ∈ l1, y.lastModified < o.lastModified) ∧
      (∀ y ∈ l2, y.lastModified ≤ o.lastModified)) :=
  ⟨by decide,
   (C5_locator_first_max [⟨"b".data, 5⟩, ⟨"a".data, 7⟩, ⟨"c".data, 7⟩]).2 (by decide)⟩

/-- C4: the Deduplicator answers true exactly when some listed key under
the prefix contains the 8-character hash prefix as a substring, and in
particular answers false on an empty listing.  (It is a pure query: in
this model it returns only a Bool and touches no store state.) -/
theorem C4_dedup_substring (hsh : Str) (keys : List Str) :
    (check_if_hash_has_been_seen hsh keys = true ↔
      ∃ k ∈ keys, ∃ u v, k = u ++ hsh.take 8 ++ v) ∧
    check_if_hash_has_been_seen hsh [] = false := by
  constructor
  · simp only [check_if_hash_has_been_seen, List.any_eq_true, containsSub_iff]
  · rfl

theorem check_headers_first_fail (m : EmailMessage) (L : List (Str × Str))
    (hex : ∃ hc ∈ L, headerFails m hc = true) :
    ∃ l1 hc l2, L = l1 ++ hc :: l2 ∧
      (∀ hc2 ∈ l1, headerFails m hc2 = false) ∧ headerFails m hc = true ∧
      check_headers m L = some (hc.1, getHeader m hc.1) := by
  induction L with
  | nil => simp at hex
  | cons head rest ih =>
    obtain ⟨hname, expected⟩ := head
    by_cases hfail : headerFails m (hname, expected) = true
    · refine ⟨[], (hname, expected), rest, rfl, by simp, hfail, ?_⟩
      unfold headerFails at hfail
      cases hg : getHeader m hname with
      | none => simp [check_headers, hg]
      | some actual =>
        rw [hg] at hfail
        simp only [Bool.not_eq_true'] at hfail
        simp [check_headers, hg, hfail]
    · have hfail2 : headerFails m (hname, expected) = false := by
        simpa using hfail
      have hex2 : ∃ hc ∈ rest, headerFails m hc = true := by
        rcases hex with ⟨hc, hmem, hhc⟩
        rcases List.mem_cons.mp hmem with rfl | hmem
        · exact absurd hhc hfail
        · exact ⟨hc, hmem, hhc⟩
      obtain ⟨l1, hc, l2, hsplit, hl1, hhc, hch⟩ := ih hex2
      refine ⟨(hname, expected) :: l1, hc, l2, by simp [hsplit], ?_, hhc, ?_⟩
      · intro hc2 hmem
        rcases List.mem_cons.mp hmem with rfl | hmem
        · exact hfail2
        · exact hl1 hc2 hmem
      · unfold headerFails at hfail2
        cases hg : getHeader m hname with
        | none => rw [hg] at hfail2; simp at hfail2
        | some actual =>
          rw [hg] at hfail2
          have hct : containsSub expected actual = true := by simpa using hfail2
          simp [check_headers, hg, hct, hch]

theorem check_headers_all_pass (m : EmailMessage) (L : List (Str × Str))
    (hall : ∀ hc ∈ L, headerFails m hc = false) :
    check_headers m L = none := by
  induction L with
  | nil => rfl
  | cons head rest ih =>
    obtain ⟨hname, expected⟩ := head
    have hhead : headerFails m (hname, expected) = false := hall _ (by simp)
    unfold headerFails at hhead
    cases hg : getHeader m hname with
    | none => rw [hg] at hhead; simp at hhead
    | some actual =>
      rw [hg] at hhead
      have hct : containsSub expected actual = true := by simpa using hhead
      have := ih (fun hc hmem => hall hc (List.mem_cons_of_mem _ hmem))
      simp [check_headers, hg, hct, this]

/-- C3: when at least one of the four required header checks fails, the
Validator exits the process with a diagnostic carrying the first failing
header (in the check table's iteration order) and its actual value, and
produces no staging directory (the exit happens before the staging
directory is created, so nothing is extracted). -/
theorem C3_validation_exits_on_first_failure (m : EmailMessage)
    (hex : ∃ hc ∈ headers_to_check, headerFails m hc = true) :
    ∃ l1 hc l2, headers_to_check = l1 ++ hc :: l2 ∧
      (∀ hc2 ∈ l1, headerFails m hc2 = false) ∧ headerFails m hc = true ∧
      parse_email_from_s3 m = .exited hc.1 (getHeader m hc.1) := by
  obtain ⟨l1, hc, l2, hsplit, hl1, hhc, hch⟩ := check_headers_first_fail m headers_to_check hex
  exact ⟨l1, hc, l2, hsplit, hl1, hhc, by simp [parse_email_from_s3, hch]⟩

/-- Witness for C3: the concrete message `mC3` fails validation and the
theorem applies to it. -/

theorem C3_validation_exits_on_first_failure_witness :
    (∃ hc ∈ headers_to_check, headerFails mC3 hc = true) ∧
    (∃ l1 hc l2, headers_to_check = l1 ++ hc :: l2 ∧
      (∀ hc2 ∈ l1, headerFails mC3 hc2 = false) ∧ headerFails mC3 hc = true ∧
      parse_email_from_s3 mC3 = .exited hc.1 (getHeader mC3 hc.1)) :=
  ⟨by decide, C3_validation_exits_on_first_failure mC3 (by decide)⟩

theorem writeFile_of_fresh (d : List (Str × List Nat)) (name : Str) (content : List Nat)
    (h : ∀ e ∈ d, e.1 ≠ name) : writeFile d name content = d ++ [(name, content)] := by
  have hany : d.any (fun e => e.1 == name) = false := by
    rw [List.any_eq_false]
    intro e he
    simpa using h e he
  simp [writeFile, hany]

theorem writeFile_mem (d : List (Str × List Nat)) (name : Str) (content : List Nat)
    (e : Str × List Nat) (he : e ∈ writeFile d name content) :
    e ∈ d ∨ e = (name, content) := by
  unfold writeFile at he
  by_cases hany : d.any (fun e => e.1 == name) = true
  · rw [if_pos hany] at he
    obtain ⟨orig, hmem, horig⟩ := List.mem_map.mp he
    by_cases hc : orig.1 = name
    · right; rw [← horig]; simp [hc]
    · left
      rw [← horig]
      simp only [beq_eq_false_iff_ne, ne_eq, hc, not_false_eq_true, beq_iff_eq, if_neg hc]
      exact hmem
  · rw [if_neg hany] at he
    rcases List.mem_append.mp he with hd | he
    · exact Or.inl hd
    · simp at he; exact Or.inr he

theorem extract_foldl_eq (ps : List EmailPart) :
    ∀ acc : List (Str × List Nat),
      ((acc ++ attEntries ps).map Prod.fst).Nodup →
      ps.foldl extractStep acc = acc ++ attEntries ps := by
  induction ps with
  | nil => intro acc _; simp [attEntries]
  | cons p ps ih =>
    intro acc hnd
    obtain ⟨pa, pf, ppl, pch⟩ := p
    cases pa with
    | false =>
      have hskip : extractStep acc ⟨false, pf, ppl, pch⟩ = acc := by
        simp [extractStep, EmailPart.attached]
      have hent : attEntries (⟨false, pf, ppl, pch⟩ :: ps) = attEntries ps := by
        simp [attEntries, EmailPart.attached]
      rw [List.foldl_cons, hskip]
      rw [hent] at hnd ⊢
      exact ih acc hnd
    | true =>
      cases pf with
      | none =>
        have hskip : extractStep acc ⟨true, none, ppl, pch⟩ = acc := by
          simp [extractStep, EmailPart.attached, EmailPart.fname]
        have hent : attEntries (⟨true, none, ppl, pch⟩ :: ps) = attEntries ps := by
          simp [attEntries, EmailPart.attached, EmailPart.fname]
        rw [List.foldl_cons, hskip]
        rw [hent] at hnd ⊢
        exact ih acc hnd
      | some f =>
        by_cases hfe : f.isEmpty = true
        · have hskip : extractStep acc ⟨true, some f, ppl, pch⟩ = acc := by
            simp [extractStep, EmailPart.attached, EmailPart.fname, hfe]
          have hent : attEntries (⟨true, some f, ppl, pch⟩ :: ps) = attEntries ps := by
            simp [attEntries, EmailPart.attached, EmailPart.fname, EmailPart.payload, hfe]
          rw [List.foldl_cons, hskip]
          rw [hent] at hnd ⊢
          exact ih acc hnd
        · have hfe2 : f.isEmpty = false := by simpa using hfe
          have hent : attEntries (⟨true, some f, ppl, pch⟩ :: ps) =
              (f, ppl) :: attEntries ps := by
            simp [attEntries, EmailPart.attached, EmailPart.fname, EmailPart.payload, hfe2]
          rw [hent] at hnd
          have hfresh : ∀ e ∈ acc, e.1 ≠ f := by
            have hnd3 := hnd
            rw [List.map_append, List.nodup_append] at hnd3
            intro e hmem hef
            exact hnd3.2.2 (List.mem_map_of_mem Prod.fst hmem) (by rw [hef]; simp)
          have hstep : extractStep acc ⟨true, some f, ppl, pch⟩ = acc ++ [(f, ppl)] := by
            simp only [extractStep, EmailPart.attached, EmailPart.fname, EmailPart.payload, hfe2]
            simp [hfe2, writeFile_of_fresh acc f ppl hfresh]
          rw [List.foldl_cons, hstep, hent]
          have hnd2 : (((acc ++ [(f, ppl)]) ++ attEntries ps).map Prod.fst).Nodup := by
            rw [List.append_assoc]
            simpa using hnd
          rw [ih (acc ++ [(f, ppl)]) hnd2, List.append_assoc]
          rfl

theorem attEntries_length (ps : List EmailPart) :
    (attEntries ps).length = (ps.filter isRealAttachment).length := by
  induction ps with
  | nil => rfl
  | cons p ps ih =>
    obtain ⟨pa, pf, ppl, pch⟩ := p
    cases pa with
    | false => simpa [attEntries, isRealAttachment, EmailPart.attached, List.filter] using ih
    | true =>
      cases pf with
      | none =>
        simpa [attEntries, isRealAttachment, EmailPart.attached, EmailPart.fname,
          List.filter] using ih
      | some f =>
        by_cases hfe : f.isEmpty = true
        · simpa [attEntries, isRealAttachment, EmailPart.attached, EmailPart.fname,
            List.filter, hfe] using ih
        · have hfe2 : f.isEmpty = false := by simpa using hfe
          simpa [attEntries, isRealAttachment, EmailPart.attached, EmailPart.fname,
            EmailPart.payload, List.filter, hfe2] using ih

theorem attEntries_mem_of_real (ps : List EmailPart) (p : EmailPart) (hp : p ∈ ps)
    (hreal : isRealAttachment p = true) :
    ∃ f, p.fname = some f ∧ (f, p.payload) ∈ attEntries ps := by
  induction ps with
  | nil => simp at hp
  | cons q qs ih =>
    rcases List.mem_cons.mp hp with rfl | hp2
    · obtain ⟨pa, pf, ppl, pch⟩ := p
      simp only [isRealAttachment, Bool.and_eq_true] at hreal
      obtain ⟨ha, hf⟩ := hreal
      have hpa : pa = true := by simpa [EmailPart.attached] using ha
      cases pf with
      | none => simp [EmailPart.fname] at hf
      | some f =>
        have hfe : f.isEmpty = false := by simpa [EmailPart.fname] using hf
        refine ⟨f, rfl, ?_⟩
        simp [attEntries, hpa, EmailPart.attached, EmailPart.fname, EmailPart.payload, hfe]
    · obtain ⟨f, hf, hmem⟩ := ih hp2
      refine ⟨f, hf, ?_⟩
      obtain ⟨qa, qf, qpl, qch⟩ := q
      cases qa with
      | false => simpa [attEntries, EmailPart.attached] using hmem
      | true =>
        cases qf with
        | none => simpa [attEntries, EmailPart.attached, EmailPart.fname] using hmem
        | some g =>
          by_cases hge : g.isEmpty = true
          · simpa [attEntries, EmailPart.attached, EmailPart.fname, hge] using hmem
          · have hge2 : g.isEmpty = false := by simpa using hge
            simp [attEntries, EmailPart.attached, EmailPart.fname, EmailPart.payload, hge2]
            right
            exact hmem

/-- C7: when every header check passes, a non-multipart message yields an
empty staging directory (not an error), and a multipart message whose
saved attachment parts carry pairwise distinct filenames yields a staging
directory holding exactly one file per attachment part, byte-identical to
that part's decoded payload. -/
theorem C7_extraction_exact (m : EmailMessage)
    (hpass : ∀ hc ∈ headers_to_check, headerFails m hc = false) :
    (m.multipart = false → parse_email_from_s3 m = .staged []) ∧
    (m.multipart = true → ((attEntries m.parts).map Prod.fst).Nodup →
      parse_email_from_s3 m = .staged (attEntries m.parts) ∧
      (attEntries m.parts).length = (m.parts.filter isRealAttachment).length ∧
      (∀ p ∈ m.parts, isRealAttachment p = true →
        ∃ f, p.fname = some f ∧ (f, p.payload) ∈ attEntries m.parts)) := by
  have hch := check_headers_all_pass m headers_to_check hpass
  constructor
  · intro hmp
    simp [parse_email_from_s3, hch, hmp]
  · intro hmp hnd
    refine ⟨?_, attEntries_length m.parts, fun p hp hr => attEntries_mem_of_real m.parts p hp hr⟩
    have hext : extract_attachments m.parts = attEntries m.parts := by
      have := extract_foldl_eq m.parts [] (by simpa using hnd)
      simpa [extract_attachments] using this
    simp [parse_email_from_s3, hch, hmp, hext]

/-- Witness for C7: applying the theorem to the concrete message `mC7`
with two distinct attachment filenames. -/
theorem C7_extraction_exact_witness :
    (∀ hc ∈ headers_to_check, headerFails mC7 hc = false) ∧
    ((mC7.multipart = false → parse_email_from_s3 mC7 = .staged []) ∧
     (mC7.multipart = true → ((attEntries mC7.parts).map Prod.fst).Nodup →
       parse_email_from_s3 mC7 = .staged (attEntries mC7.parts) ∧
       (attEntries mC7.parts).length = (mC7.parts.filter isRealAttachment).length ∧
       (∀ p ∈ mC7.parts, isRealAttachment p = true →
         ∃ f, p.fname = some f ∧ (f, p.payload) ∈ attEntries mC7.parts))) :=
  ⟨by decide, C7_extraction_exact mC7 (by decide)⟩

theorem extract_foldl_sources (ps : List EmailPart) :
    ∀ acc e, e ∈ ps.foldl extractStep acc →
      e ∈ acc ∨ ∃ p ∈ ps, p.attached = true ∧ p.fname = some e.1 ∧ p.payload = e.2 := by
  induction ps with
  | nil => intro acc e he; exact Or.inl he
  | cons p ps ih =>
    intro acc e he
    rw [List.foldl_cons] at he
    rcases ih (extractStep acc p) e he with hacc | ⟨q, hq, hqa, hqf, hqp⟩
    · obtain ⟨pa, pf, ppl, pch⟩ := p
      cases pa with
      | false =>
        simp only [extractStep, EmailPart.attached, Bool.false_eq_true, if_neg] at hacc
        · exact Or.inl (by simpa using hacc)
      | true =>
        cases pf with
        | none =>
          simp only [extractStep, EmailPart.attached, EmailPart.fname, if_pos] at hacc
          exact Or.inl hacc
        | some f =>
          by_cases hfe : f.isEmpty = true
          · simp only [extractStep, EmailPart.attached, EmailPart.fname, if_pos, hfe,
              if_true] at hacc
            exact Or.inl hacc
          · have hfe2 : f.isEmpty = false := by simpa using hfe
            simp only [extractStep, EmailPart.attached, EmailPart.fname, EmailPart.payload,
              if_pos, hfe2, Bool.false_eq_true, if_false] at hacc
            rcases writeFile_mem acc f ppl e hacc with hd | rfl
            · exact Or.inl hd
            · exact Or.inr ⟨⟨true, some f, ppl, pch⟩, by simp,
                by simp [EmailPart.attached], by simp [EmailPart.fname],
                by simp [EmailPart.payload]⟩
    · exact Or.inr ⟨q, List.mem_cons_of_mem _ hq, hqa, hqf, hqp⟩

/-- C9: the extractor looks only at the immediate top-level parts of the
message; every file in the staging directory is the filename/payload of
some top-level attachment part, so an attachment reachable only inside a
nested multipart container is never written. -/
theorem C9_only_top_level_parts (m : EmailMessage)
    (hpass : ∀ hc ∈ headers_to_check, headerFails m hc = false)
    (files : List (Str × List Nat))
    (hres : parse_email_from_s3 m = .staged files) :
    ∀ f c, (f, c) ∈ files →
      ∃ p ∈ m.parts, p.attached = true ∧ p.fname = some f ∧ p.payload = c := by
  intro f c hmem
  have hch := check_headers_all_pass m headers_to_check hpass
  rw [parse_email_from_s3, hch] at hres
  cases hmp : m.multipart with
  | false =>
    rw [hmp] at hres
    simp only [if_neg] at hres
    · cases hres
      simp at hmem
  | true =>
    rw [hmp] at hres
    simp only [if_pos] at hres
    cases hres
    rcases extract_foldl_sources m.parts [] (f, c) hmem with h | ⟨p, hp, hpa, hpf, hpp⟩
    · simp at h
    · exact ⟨p, hp, hpa, hpf, hpp⟩

/-- Witness for C9: the theorem applies to the concrete nested-attachment
message `mC9`, whose staging directory is empty. -/
theorem C9_only_top_level_parts_witness :
    (∀ hc ∈ headers_to_check, headerFails mC9 hc = false) ∧
    (parse_email_from_s3 mC9 = .staged []) ∧
    (∀ f c, (f, c) ∈ ([] : List (Str × List Nat)) →
      ∃ p ∈ mC9.parts, p.attached = true ∧ p.fname = some f ∧ p.payload = c) :=
  ⟨by decide, rfl, C9_only_top_level_parts mC9 (by decide) [] rfl⟩

theorem strLeB_total (a b : Str) : strLeB a b = true ∨ strLeB b a = true := by
  induction a generalizing b with
  | nil => left; rfl
  | cons x xs ih =>
    cases b with
    | nil => right; rfl
    | cons y ys =>
      rcases Nat.lt_trichotomy x.toNat y.toNat with h | h | h
      · left; simp [strLeB, h]
      · rcases ih ys with h2 | h2
        · left; simp [strLeB, h, h2]
        · right; simp [strLeB, h, h2]
      · right; simp [strLeB, h, Nat.lt_asymm h]

theorem strLeB_trans (a b c : Str) (hab : strLeB a b = true) (hbc : strLeB b c = true) :
    strLeB a c = true := by
  induction a generalizing b c with
  | nil => rfl
  | cons x xs ih =>
    cases b with
    | nil => simp [strLeB] at hab
    | cons y ys =>
      cases c with
      | nil => simp [strLeB] at hbc
      | cons z zs =>
        simp only [strLeB] at hab hbc ⊢
        by_cases hxy : x.toNat < y.toNat
        · by_cases hyz : y.toNat < z.toNat
          · simp [Nat.lt_trans hxy hyz]
          · simp only [if_pos hxy] at hab
            by_cases hzy : z.toNat < y.toNat
            · simp [hyz, hzy] at hbc
            · have hyz2 : y.toNat = z.toNat := by omega
              simp [hxy, hyz2] at *
              simp [show x.toNat < z.toNat by omega]
        · by_cases hyx : y.toNat < x.toNat
          · simp [hxy, hyx] at hab
          · have hxy2 : x.toNat = y.toNat := by omega
            by_cases hyz : y.toNat < z.toNat
            · simp [show x.toNat < z.toNat by omega]
            · by_cases hzy : z.toNat < y.toNat
              · simp [hyz, hzy] at hbc
              · have hyz2 : y.toNat = z.toNat := by omega
                simp only [if_neg hxy, if_neg hyx] at hab
                simp only [if_neg hyz, if_neg hzy] at hbc
                simp [show ¬ x.toNat < z.toNat by omega, show ¬ z.toNat < x.toNat by omega,
                  ih ys zs hab hbc]

theorem sortStrAsc_head (l : List Str) (hne : l ≠ []) :
    ∃ m rest, sortStrAsc l = m :: rest ∧ m ∈ l ∧ ∀ x ∈ l, strLeB m x = true := by
  induction l using List.reverseRecOn with
  | nil => exact absurd rfl hne
  | append_singleton l x ih =>
    rcases eq_or_ne l [] with rfl | hl
    · refine ⟨x, [], by simp [sortStrAsc, insertAsc], by simp, ?_⟩
      intro y hy
      simp at hy
      subst hy
      rcases strLeB_total y y with h | h <;> exact h
    · obtain ⟨m, rest, hsort, hmem, hmin⟩ := ih hl
      have hfold : sortStrAsc (l ++ [x]) = insertAsc x (sortStrAsc l) := by
        simp [sortStrAsc, List.foldl_append]
      by_cases hmx : strLeB m x = true
      · refine ⟨m, insertAsc x rest, ?_, List.mem_append_left _ hmem, ?_⟩
        · rw [hfold, hsort]; simp [insertAsc, hmx]
        · intro y hy
          rcases List.mem_append.mp hy with hy | hy
          · exact hmin y hy
          · simp at hy; subst hy; exact hmx
      · have hxm : strLeB x m = true := by
          rcases strLeB_total m x with h | h
          · exact absurd h hmx
          · exact h
        refine ⟨x, m :: rest, ?_, List.mem_append_right _ (by simp), ?_⟩
        · rw [hfold, hsort]
          simp only [insertAsc, if_neg hmx]
        · intro y hy
          rcases List.mem_append.mp hy with hy | hy
          · exact strLeB_trans x m y hxm (hmin y hy)
          · simp at hy; subst hy
            rcases strLeB_total y y with h | h <;> exact h

theorem digitChar_isDigit (n : Nat) : (digitChar n).isDigit = true := by
  have h2 : n % 10 = 0 ∨ n % 10 = 1 ∨ n % 10 = 2 ∨ n % 10 = 3 ∨ n % 10 = 4 ∨
      n % 10 = 5 ∨ n % 10 = 6 ∨ n % 10 = 7 ∨ n % 10 = 8 ∨ n % 10 = 9 := by omega
  rcases h2 with h2 | h2 | h2 | h2 | h2 | h2 | h2 | h2 | h2 | h2 <;>
    simp [digitChar, h2]

theorem mem_natToChars_isDigit (n : Nat) : ∀ c ∈ natToChars n, c.isDigit = true := by
  induction n using Nat.strong_induction_on with
  | _ n ih =>
    intro c hc
    rw [natToChars] at hc
    by_cases h : n < 10
    · rw [dif_pos h] at hc
      simp at hc
      subst hc
      exact digitChar_isDigit n
    · rw [dif_neg h] at hc
      rcases List.mem_append.mp hc with hc | hc
      · exact ih (n / 10) (Nat.div_lt_self (by omega) (by omega)) c hc
      · simp at hc
        subst hc
        exact digitChar_isDigit n

theorem natToChars_ne_nil (n : Nat) : natToChars n ≠ [] := by
  rw [natToChars]
  by_cases h : n < 10
  · simp [h]
  · simp [h]

theorem padNum_head_digit (w n : Nat) :
    ∃ c rest, padNum w n = c :: rest ∧ c.isDigit = true := by
  unfold padNum
  cases hr : w - (natToChars n).length with
  | zero =>
    cases hn : natToChars n with
    | nil => exact absurd hn (natToChars_ne_nil n)
    | cons c rest =>
      refine ⟨c, rest, by simp, ?_⟩
      exact mem_natToChars_isDigit n c (by rw [hn]; simp)
  | succ k =>
    exact ⟨'0', List.replicate k '0' ++ natToChars n, by simp [List.replicate], by decide⟩

theorem formatUTC_head_digit (y mo d hh mi s : Nat) :
    ∃ c rest, formatUTC y mo d hh mi s = c :: rest ∧ c.isDigit = true := by
  obtain ⟨c, rest, hp, hd⟩ := padNum_head_digit 4 y
  exact ⟨c, rest ++ (padNum 2 mo ++ padNum 2 d ++ "-".data ++ padNum 2 hh ++ padNum 2 mi ++
    padNum 2 s ++ "_UTC".data), by simp [formatUTC, hp], hd⟩

theorem hasPfx_append_same (a b c : Str) : hasPfx (a ++ b) (a ++ c) = hasPfx b c := by
  induction a with
  | nil => rfl
  | cons x xs ih => simp [hasPfx, ih]

/-- C1 (amended): the promotion half of the Publisher considers exactly
the root-level staging files matching the glob pattern for .xlsx (name
ends in .xlsx and is not dot-hidden); when none match it contributes no
action, and when some match it deletes exactly the listed objects whose
key starts with attachments/most_recent_data and uploads the
alphabetically first matching file to the fixed key
attachments/most_recent_data.xlsx.  (The original claim also admitted
.csv files and a variable extension on the target key; the code globs
only *.xlsx and always writes the .xlsx target key.) -/
theorem C1_xlsx_promotion (bucketKeys : List Str) (pfx : Str) (location : List FileEntry)
    (hsh ts : Str) :
    ((location.filter (fun e => e.dirParts.isEmpty && globXlsx e.name)).map (fun e => e.name) = [] →
      upload_attachments_to_s3 bucketKeys pfx location hsh ts = walkUploads pfx location hsh ts) ∧
    ((location.filter (fun e => e.dirParts.isEmpty && globXlsx e.name)).map (fun e => e.name) ≠ [] →
      ∃ m, m ∈ (location.filter (fun e => e.dirParts.isEmpty && globXlsx e.name)).map
          (fun e => e.name) ∧
        (∀ n2 ∈ (location.filter (fun e => e.dirParts.isEmpty && globXlsx e.name)).map
          (fun e => e.name), strLeB m n2 = true) ∧
        upload_attachments_to_s3 bucketKeys pfx location hsh ts =
          ((bucketKeys.filter (fun k => hasPfx mrdPfx k)).map S3Action.delete) ++
            [S3Action.upload mrdKey ⟨[], m⟩] ++ walkUploads pfx location hsh ts) := by
  constructor
  · intro hnil
    simp [upload_attachments_to_s3, promoActions, hnil, sortStrAsc]
  · intro hne
    obtain ⟨m, rest, hsort, hmem, hmin⟩ := sortStrAsc_head _ hne
    refine ⟨m, hmem, hmin, ?_⟩
    simp only [upload_attachments_to_s3, promoActions, hsort, List.append_assoc]

/-- Witness for C1 at the staging directory `locC1` and a bucket holding
one stale most-recent-data object. -/
theorem C1_xlsx_promotion_witness :
    ((locC1.filter (fun e => e.dirParts.isEmpty && globXlsx e.name)).map (fun e => e.name) ≠ []) ∧
    (∃ m, m ∈ (locC1.filter (fun e => e.dirParts.isEmpty && globXlsx e.name)).map
        (fun e => e.name) ∧
      (∀ n2 ∈ (locC1.filter (fun e => e.dirParts.isEmpty && globXlsx e.name)).map
        (fun e => e.name), strLeB m n2 = true) ∧
      upload_attachments_to_s3 ["attachments/most_recent_data.csv".data] writePfxC locC1
          "0123456789abcdef".data "20240101-000000_UTC".data =
        ((["attachments/most_recent_data.csv".data].filter (fun k => hasPfx mrdPfx k)).map
            S3Action.delete) ++
          [S3Action.upload mrdKey ⟨[], m⟩] ++
          walkUploads writePfxC locC1 "0123456789abcdef".data "20240101-000000_UTC".data) :=
  ⟨by decide,
   (C1_xlsx_promotion ["attachments/most_recent_data.csv".data] writePfxC locC1
     "0123456789abcdef".data "20240101-000000_UTC".data).2 (by decide)⟩

/-- Counterexample to C1 as stated: a staging root holding only b.csv.
The claim requires the promotion to select it, delete the stale
most-recent-data object and upload to attachments/most_recent_data.csv;
the code's action list contains no deletion and no most-recent-data
upload at all, only the folder upload of b.csv. -/
theorem C1_csv_not_promoted :
    upload_attachments_to_s3 ["attachments/most_recent_data.xlsx".data] writePfxC
        [⟨[], "b.csv".data⟩] "0123456789abcdef".data "20240101-000000_UTC".data =
      [S3Action.upload ("attachments/20240101-000000_UTC-01234567/b.csv".data)
        ⟨[], "b.csv".data⟩] := by
  decide

/-- C2 (amended): the walk half of the Publisher uploads every staged
file, regardless of extension or directory depth, to
`<pfx>/<timestamp>-<hash8>/<bare filename>`: the file's directory path
relative to the staging root is not reflected in the key, and no other
keys than these (and possibly the fixed most-recent-data key) are ever
the target of an upload. -/
theorem C2_walk_uploads_flat (bucketKeys : List Str) (pfx : Str) (location : List FileEntry)
    (hsh ts : Str) :
    (∀ e ∈ location,
      S3Action.upload (joinPath (joinPath pfx (ts ++ '-' :: hsh.take 8)) e.name) e ∈
        upload_attachments_to_s3 bucketKeys pfx location hsh ts) ∧
    (∀ k e, S3Action.upload k e ∈ upload_attachments_to_s3 bucketKeys pfx location hsh ts →
      (k = mrdKey ∧ e.dirParts = []) ∨
      (e ∈ location ∧ k = joinPath (joinPath pfx (ts ++ '-' :: hsh.take 8)) e.name)) := by
  constructor
  · intro e he
    apply List.mem_append_right
    exact List.mem_map.mpr ⟨e, he, rfl⟩
  · intro k e hmem
    rcases List.mem_append.mp hmem with hp | hw
    · left
      unfold promoActions at hp
      rcases hsort : sortStrAsc ((location.filter
          (fun e => e.dirParts.isEmpty && globXlsx e.name)).map (fun e => e.name)) with
        _ | ⟨d, ds⟩
      · rw [hsort] at hp; simp at hp
      · rw [hsort] at hp
        rcases List.mem_append.mp hp with hdel | hup
        · obtain ⟨k2, _, habs⟩ := List.mem_map.mp hdel
          cases habs
        · simp only [List.mem_singleton] at hup
          injection hup with h1 h2
          exact ⟨h1, by rw [h2]⟩
    · right
      obtain ⟨e2, he2, heq⟩ := List.mem_map.mp hw
      injection heq with h1 h2
      subst h2
      exact ⟨he2, h1.symm⟩

/-- Witness for C2 at a two-level staging directory: the nested file is
uploaded under its bare filename. -/
theorem C2_walk_uploads_flat_witness :
    (⟨["sub".data], "f.txt".data⟩ : FileEntry) ∈
      ([⟨["sub".data], "f.txt".data⟩] : List FileEntry) ∧
    S3Action.upload
        (joinPath (joinPath writePfxC ("20240101-000000_UTC".data ++
          '-' :: ("0123456789abcdef".data).take 8)) "f.txt".data)
        ⟨["sub".data], "f.txt".data⟩ ∈
      upload_attachments_to_s3 [] writePfxC [⟨["sub".data], "f.txt".data⟩]
        "0123456789abcdef".data "20240101-000000_UTC".data :=
  ⟨by decide,
   (C2_walk_uploads_flat [] writePfxC [⟨["sub".data], "f.txt".data⟩]
     "0123456789abcdef".data "20240101-000000_UTC".data).1
     ⟨["sub".data], "f.txt".data⟩ (by decide)⟩

/-- Counterexample to C2 as stated: for a staging file sub/f.txt the
claim requires the upload key to preserve the relative path
(.../sub/f.txt); the code uploads it under .../f.txt and no action
carries the path-preserving key. -/
theorem C2_relative_path_dropped :
    upload_attachments_to_s3 [] writePfxC [⟨["sub".data], "f.txt".data⟩]
        "0123456789abcdef".data "20240101-000000_UTC".data =
      [S3Action.upload ("attachments/20240101-000000_UTC-01234567/f.txt".data)
        ⟨["sub".data], "f.txt".data⟩] ∧
    (∀ e, S3Action.upload ("attachments/20240101-000000_UTC-01234567/sub/f.txt".data) e ∉
      upload_attachments_to_s3 [] writePfxC [⟨["sub".data], "f.txt".data⟩]
        "0123456789abcdef".data "20240101-000000_UTC".data) := by
  have hacts : upload_attachments_to_s3 [] writePfxC [⟨["sub".data], "f.txt".data⟩]
      "0123456789abcdef".data "20240101-000000_UTC".data =
    [S3Action.upload ("attachments/20240101-000000_UTC-01234567/f.txt".data)
      ⟨["sub".data], "f.txt".data⟩] := by decide
  refine ⟨hacts, ?_⟩
  intro e hmem
  rw [hacts] at hmem
  simp only [List.mem_singleton] at hmem
  injection hmem with h1 _
  have : ("attachments/20240101-000000_UTC-01234567/sub/f.txt".data ≠
      "attachments/20240101-000000_UTC-01234567/f.txt".data) := by decide
  exact this h1

theorem isDigit_ne (c : Char) (hc : c.isDigit = true) (d : Char) (hd : d.isDigit = false) :
    (d == c) = false := by
  rw [beq_eq_false_iff_ne]
  intro h
  subst h
  rw [hc] at hd
  cases hd

theorem hasPfx_mrd_walk_key (c : Char) (hc : c.isDigit = true) (tail name : Str) :
    hasPfx mrdPfx (joinPath (joinPath writePfxC (c :: tail)) name) = false := by
  have hcslash : (('/' : Char) == c) = false := isDigit_ne c hc '/' (by decide)
  have hcm : (('m' : Char) == c) = false := isDigit_ne c hc 'm' (by decide)
  have hj1 : joinPath writePfxC (c :: tail) = writePfxC ++ c :: tail := by
    unfold joinPath
    rw [if_neg (by simp [hasPfx, hcslash]), if_neg (by decide), if_pos (by decide)]
  rw [hj1]
  unfold joinPath
  by_cases hname : hasPfx ['/'] name = true
  · rw [if_pos hname]
    obtain ⟨t, ht⟩ := (hasPfx_iff ['/'] name).mp hname
    subst ht
    simp [mrdPfx, hasPfx]
  · rw [if_neg hname, if_neg (by simp [writePfxC]), ]
    by_cases hlast : (writePfxC ++ c :: tail).getLast? = some '/'
    · rw [if_pos hlast]
      simp [mrdPfx, writePfxC, hasPfx, hcm]
    · rw [if_neg hlast]
      simp [mrdPfx, writePfxC, hasPfx, hcm]

/-- C10: when no root-level staging file has extension .xlsx, the
Publisher issues no delete at all and no upload whose key starts with
attachments/most_recent_data (any existing most-recent-data object is
untouched), while still uploading every staged file into the new
timestamped folder. -/
theorem C10_no_xlsx_no_promotion (bucketKeys : List Str) (location : List FileEntry)
    (hsh : Str) (y mo d hh mi s : Nat)
    (hno : ∀ e ∈ location, e.dirParts.isEmpty = true →
      List.isSuffixOf ".xlsx".data e.name = false) :
    (∀ k, S3Action.delete k ∉
      upload_attachments_to_s3 bucketKeys writePfxC location hsh (formatUTC y mo d hh mi s)) ∧
    (∀ k e, S3Action.upload k e ∈
        upload_attachments_to_s3 bucketKeys writePfxC location hsh (formatUTC y mo d hh mi s) →
      hasPfx mrdPfx k = false) ∧
    (∀ e ∈ location,
      S3Action.upload (joinPath (joinPath writePfxC
          ((formatUTC y mo d hh mi s) ++ '-' :: hsh.take 8)) e.name) e ∈
        upload_attachments_to_s3 bucketKeys writePfxC location hsh
          (formatUTC y mo d hh mi s)) := by
  have hfilter : location.filter (fun e => e.dirParts.isEmpty && globXlsx e.name) = [] := by
    rw [List.filter_eq_nil_iff]
    intro e he
    cases hde : e.dirParts.isEmpty with
    | false => simp [hde]
    | true =>
      have hsuf := hno e he hde
      cases hn : e.name with
      | nil => simp [globXlsx, hn]
      | cons c0 cs => simp [globXlsx, hn, hn ▸ hsuf]
  have hpromo : promoActions bucketKeys location = [] := by
    unfold promoActions
    rw [hfilter]
    rfl
  have hacts : upload_attachments_to_s3 bucketKeys writePfxC location hsh
      (formatUTC y mo d hh mi s) =
      walkUploads writePfxC location hsh (formatUTC y mo d hh mi s) := by
    unfold upload_attachments_to_s3
    rw [hpromo]
    rfl
  obtain ⟨c, trest, hts, hcd⟩ := formatUTC_head_digit y mo d hh mi s
  refine ⟨?_, ?_, ?_⟩
  · intro k hmem
    rw [hacts] at hmem
    obtain ⟨e2, _, habs⟩ := List.mem_map.mp hmem
    cases habs
  · intro k e hmem
    rw [hacts] at hmem
    obtain ⟨e2, _, heq⟩ := List.mem_map.mp hmem
    injection heq with h1 h2
    rw [← h1, hts]
    exact hasPfx_mrd_walk_key c hcd (trest ++ '-' :: hsh.take 8) e2.name
  · intro e he
    rw [hacts]
    exact List.mem_map.mpr ⟨e, he, rfl⟩

/-- Witness for C10 at the staging directory `locC10`: the hypothesis
holds because the only root file is data.csv, and the theorem applies. -/
theorem C10_no_xlsx_no_promotion_witness :
    (∀ e ∈ locC10, e.dirParts.isEmpty = true →
      List.isSuffixOf ".xlsx".data e.name = false) ∧
    ((∀ k, S3Action.delete k ∉
      upload_attachments_to_s3 ["attachments/most_recent_data.xlsx".data] writePfxC locC10
        "0123456789abcdef".data (formatUTC 2024 1 1 0 0 0)) ∧
    (∀ k e, S3Action.upload k e ∈
        upload_attachments_to_s3 ["attachments/most_recent_data.xlsx".data] writePfxC locC10
          "0123456789abcdef".data (formatUTC 2024 1 1 0 0 0) →
      hasPfx mrdPfx k = false) ∧
    (∀ e ∈ locC10,
      S3Action.upload (joinPath (joinPath writePfxC
          ((formatUTC 2024 1 1 0 0 0) ++ '-' :: ("0123456789abcdef".data).take 8)) e.name) e ∈
        upload_attachments_to_s3 ["attachments/most_recent_data.xlsx".data] writePfxC locC10
          "0123456789abcdef".data (formatUTC 2024 1 1 0 0 0))) :=
  ⟨by decide,
   C10_no_xlsx_no_promotion ["attachments/most_recent_data.xlsx".data] locC10
     "0123456789abcdef".data 2024 1 1 0 0 0 (by decide)⟩

theorem utf8DecodeF_nil (fuel : Nat) : utf8DecodeF fuel [] = some [] := by
  cases fuel <;> rfl

theorem utf8DecodeF_lt80 (fuel b : Nat) (rest : List Nat) (h : b < 0x80) :
    utf8DecodeF (fuel + 1) (b :: rest) = (utf8DecodeF fuel rest).map (b :: ·) := by
  rw [utf8DecodeF.eq_3]
  unfold utf8Step
  rw [if_pos h]

theorem utf8DecodeF_2byte (fuel b b1 : Nat) (rest : List Nat) (hb : 0xC2 ≤ b) (hb2 : b < 0xE0)
    (h1 : 0x80 ≤ b1 ∧ b1 < 0xC0) :
    utf8DecodeF (fuel + 1) (b :: b1 :: rest) =
      (utf8DecodeF fuel rest).map (((b - 0xC0) * 0x40 + (b1 - 0x80)) :: ·) := by
  rw [utf8DecodeF.eq_3]
  unfold utf8Step
  simp only [List.getD_cons_zero, List.getD_cons_succ, List.length_cons,
    List.drop_succ_cons, List.drop_zero]
  rw [if_neg (by omega), if_neg (by omega), if_pos hb2, if_neg (by omega), if_pos h1]

theorem utf8DecodeF_3byte (fuel b b1 b2 : Nat) (rest : List Nat) (hb : 0xE0 ≤ b) (hb2 : b < 0xF0)
    (h1 : 0x80 ≤ b1 ∧ b1 < 0xC0) (h2 : 0x80 ≤ b2 ∧ b2 < 0xC0) :
    utf8DecodeF (fuel + 1) (b :: b1 :: b2 :: rest) =
      (if (b - 0xE0) * 0x1000 + (b1 - 0x80) * 0x40 + (b2 - 0x80) < 0x800 then none
       else if 0xD800 ≤ (b - 0xE0) * 0x1000 + (b1 - 0x80) * 0x40 + (b2 - 0x80) ∧
           (b - 0xE0) * 0x1000 + (b1 - 0x80) * 0x40 + (b2 - 0x80) ≤ 0xDFFF then none
       else (utf8DecodeF fuel rest).map
         (((b - 0xE0) * 0x1000 + (b1 - 0x80) * 0x40 + (b2 - 0x80)) :: ·)) := by
  rw [utf8DecodeF.eq_3]
  unfold utf8Step
  simp only [List.getD_cons_zero, List.getD_cons_succ, List.length_cons,
    List.drop_succ_cons, List.drop_zero]
  rw [if_neg (by omega), if_neg (by omega), if_neg (by omega), if_pos hb2, if_neg (by omega),
    if_pos ⟨h1, h2⟩]

theorem utf8DecodeF_4byte (fuel b b1 b2 b3 : Nat) (rest : List Nat) (hb : 0xF0 ≤ b)
    (hb2 : b < 0xF5) (h1 : 0x80 ≤ b1 ∧ b1 < 0xC0) (h2 : 0x80 ≤ b2 ∧ b2 < 0xC0)
    (h3 : 0x80 ≤ b3 ∧ b3 < 0xC0) :
    utf8DecodeF (fuel + 1) (b :: b1 :: b2 :: b3 :: rest) =
      (if (b - 0xF0) * 0x40000 + (b1 - 0x80) * 0x1000 + (b2 - 0x80) * 0x40 + (b3 - 0x80) <
          0x10000 then none
       else if 0x10FFFF < (b - 0xF0) * 0x40000 + (b1 - 0x80) * 0x1000 + (b2 - 0x80) * 0x40 +
           (b3 - 0x80) then none
       else (utf8DecodeF fuel rest).map
         (((b - 0xF0) * 0x40000 + (b1 - 0x80) * 0x1000 + (b2 - 0x80) * 0x40 + (b3 - 0x80)) :: ·)) := by
  rw [utf8DecodeF.eq_3]
  unfold utf8Step
  simp only [List.getD_cons_zero, List.getD_cons_succ, List.length_cons,
    List.drop_succ_cons, List.drop_zero]
  rw [if_neg (by omega), if_neg (by omega), if_neg (by omega), if_neg (by omega), if_pos hb2,
    if_neg (by omega), if_pos ⟨h1, h2, h3⟩]

theorem utf8DecodeF_encode (s : List Nat) : ∀ fuel, (utf8Encode s).length ≤ fuel →
    (∀ c ∈ s, ValidCp c) → utf8DecodeF fuel (utf8Encode s) = some s := by
  induction s with
  | nil => intro fuel _ _; exact utf8DecodeF_nil fuel
  | cons c s ih =>
    intro fuel hfuel hv
    have hvc : ValidCp c := hv c (by simp)
    have hvs : ∀ x ∈ s, ValidCp x := fun x hx => hv x (by simp [hx])
    have henc : utf8Encode (c :: s) = encodeCp c ++ utf8Encode s := by
      simp [utf8Encode]
    have hlen1 : 1 ≤ (encodeCp c).length := by
      unfold encodeCp
      split_ifs <;> simp
    obtain ⟨g, rfl⟩ : ∃ g, fuel = g + 1 := by
      rw [henc, List.length_append] at hfuel
      exact ⟨fuel - 1, by omega⟩
    have hg : (utf8Encode s).length ≤ g := by
      rw [henc, List.length_append] at hfuel
      omega
    have ihs : utf8DecodeF g (utf8Encode s) = some s := ih g hg hvs
    rw [henc]
    by_cases h1 : c < 0x80
    · rw [show encodeCp c = [c] from by unfold encodeCp; rw [if_pos h1]]
      rw [List.cons_append, List.nil_append, utf8DecodeF_lt80 g c _ h1, ihs]
      rfl
    · by_cases h2 : c < 0x800
      · rw [show encodeCp c = [0xC0 + c / 0x40, 0x80 + c % 0x40] from by
          unfold encodeCp; rw [if_neg h1, if_pos h2]]
        simp only [List.cons_append, List.nil_append]
        rw [utf8DecodeF_2byte g _ _ _ (by omega) (by omega) (by omega), ihs]
        simp only [Option.map_some', Option.some.injEq, List.cons.injEq]
        exact ⟨by omega, trivial⟩
      · by_cases h3 : c < 0x10000
        · rw [show encodeCp c = [0xE0 + c / 0x1000, 0x80 + (c / 0x40) % 0x40, 0x80 + c % 0x40]
            from by unfold encodeCp; rw [if_neg h1, if_neg h2, if_pos h3]]
          simp only [List.cons_append, List.nil_append]
          rw [utf8DecodeF_3byte g _ _ _ _ (by omega) (by omega) (by omega) (by omega),
            if_neg (by omega), if_neg (by rcases hvc.2 with h | h <;> omega), ihs]
          simp only [Option.map_some', Option.some.injEq, List.cons.injEq]
          exact ⟨by omega, trivial⟩
        · have hc17 : c < 0x110000 := hvc.1
          rw [show encodeCp c = [0xF0 + c / 0x40000, 0x80 + (c / 0x1000) % 0x40,
              0x80 + (c / 0x40) % 0x40, 0x80 + c % 0x40] from by
            unfold encodeCp; rw [if_neg h1, if_neg h2, if_neg h3]]
          simp only [List.cons_append, List.nil_append]
          rw [utf8DecodeF_4byte g _ _ _ _ _ (by omega) (by omega) (by omega) (by omega)
            (by omega), if_neg (by omega), if_neg (by omega), ihs]
          simp only [Option.map_some', Option.some.injEq, List.cons.injEq]
          exact ⟨by omega, trivial⟩

theorem utf8_decode_encode (s : List Nat) (hv : ∀ c ∈ s, ValidCp c) :
    utf8Decode (utf8Encode s) = some s :=
  utf8DecodeF_encode s (utf8Encode s).length le_rfl hv

theorem utf8Encode_cons_eq (c : Nat) (s1 : List Nat) (bs : List Nat)
    (henc : encodeCp c = bs) (rest : List Nat) (hrest : utf8Encode s1 = rest) :
    utf8Encode (c :: s1) = bs ++ rest := by
  simp only [utf8Encode, List.map_cons, List.flatten_cons]
  rw [henc]
  simp only [utf8Encode] at hrest
  rw [hrest]

set_option maxRecDepth 8192 in
theorem utf8DecodeF_sound :
    ∀ fuel bs s, utf8DecodeF fuel bs = some s →
      utf8Encode s = bs ∧ ∀ c ∈ s, ValidCp c := by
  intro fuel
  induction fuel with
  | zero =>
    intro bs s h
    cases bs with
    | nil =>
      rw [utf8DecodeF_nil] at h
      injection h with h2
      subst h2
      exact ⟨rfl, by simp⟩
    | cons b rest =>
      rw [utf8DecodeF.eq_2] at h
      exact Option.noConfusion h
  | succ fuel ih =>
    intro bs s h
    cases bs with
    | nil =>
      rw [utf8DecodeF_nil] at h
      injection h with h2
      subst h2
      exact ⟨rfl, by simp⟩
    | cons b rest =>
      rw [utf8DecodeF.eq_3] at h
      unfold utf8Step at h
      by_cases h1 : b < 0x80
      · rw [if_pos h1] at h
        obtain ⟨s1, hs1, hmap⟩ := Option.map_eq_some'.mp h
        obtain ⟨henc1, hval1⟩ := ih rest s1 hs1
        subst hmap
        refine ⟨utf8Encode_cons_eq b s1 [b] (by unfold encodeCp; rw [if_pos h1]) rest henc1, ?_⟩
        intro c hc
        rcases List.mem_cons.mp hc with rfl | hc
        · exact ⟨by omega, Or.inl (by omega)⟩
        · exact hval1 c hc
      · rw [if_neg h1] at h
        by_cases h2 : b < 0xC2
        · rw [if_pos h2] at h; exact Option.noConfusion h
        · rw [if_neg h2] at h
          by_cases h3 : b < 0xE0
          · rw [if_pos h3] at h
            by_cases h4 : rest.length < 1
            · rw [if_pos h4] at h; exact Option.noConfusion h
            · rw [if_neg h4] at h
              cases rest with
              | nil => simp at h4
              | cons b1 rest1 =>
                simp only [List.getD_cons_zero, List.drop_succ_cons, List.drop_zero] at h
                by_cases h5 : 0x80 ≤ b1 ∧ b1 < 0xC0
                · rw [if_pos h5] at h
                  obtain ⟨s1, hs1, hmap⟩ := Option.map_eq_some'.mp h
                  obtain ⟨henc1, hval1⟩ := ih rest1 s1 hs1
                  subst hmap
                  refine ⟨utf8Encode_cons_eq _ s1 [b, b1] ?_ rest1 henc1, ?_⟩
                  · unfold encodeCp
                    rw [if_neg (by omega), if_pos (by omega)]
                    simp only [List.cons.injEq]
                    exact ⟨by omega, by omega, trivial⟩
                  · intro c hc
                    rcases List.mem_cons.mp hc with rfl | hc
                    · unfold ValidCp; omega
                    · exact hval1 c hc
                · rw [if_neg h5] at h; exact Option.noConfusion h
          · rw [if_neg h3] at h
            by_cases h6 : b < 0xF0
            · rw [if_pos h6] at h
              by_cases h4 : rest.length < 2
              · rw [if_pos h4] at h; exact Option.noConfusion h
              · rw [if_neg h4] at h
                cases rest with
                | nil => simp at h4
                | cons b1 rest1 =>
                  cases rest1 with
                  | nil => simp at h4
                  | cons b2 rest2 =>
                    simp only [List.getD_cons_zero, List.getD_cons_succ,
                      List.drop_succ_cons, List.drop_zero] at h
                    by_cases h5 : (0x80 ≤ b1 ∧ b1 < 0xC0) ∧ (0x80 ≤ b2 ∧ b2 < 0xC0)
                    · rw [if_pos h5] at h
                      obtain ⟨h5a, h5b⟩ := h5
                      by_cases h7 : (b - 0xE0) * 0x1000 + (b1 - 0x80) * 0x40 + (b2 - 0x80) <
                          0x800
                      · rw [if_pos h7] at h; exact Option.noConfusion h
                      · rw [if_neg h7] at h
                        by_cases h8 : 0xD800 ≤ (b - 0xE0) * 0x1000 + (b1 - 0x80) * 0x40 +
                            (b2 - 0x80) ∧
                            (b - 0xE0) * 0x1000 + (b1 - 0x80) * 0x40 + (b2 - 0x80) ≤ 0xDFFF
                        · rw [if_pos h8] at h; exact Option.noConfusion h
                        · rw [if_neg h8] at h
                          obtain ⟨s1, hs1, hmap⟩ := Option.map_eq_some'.mp h
                          obtain ⟨henc1, hval1⟩ := ih rest2 s1 hs1
                          subst hmap
                          refine ⟨utf8Encode_cons_eq _ s1 [b, b1, b2] ?_ rest2 henc1, ?_⟩
                          · unfold encodeCp
                            rw [if_neg (by omega), if_neg (by omega), if_pos (by omega)]
                            simp only [List.cons.injEq]
                            exact ⟨by omega, by omega, by omega, trivial⟩
                          · intro c hc
                            rcases List.mem_cons.mp hc with rfl | hc
                            · unfold ValidCp; omega
                            · exact hval1 c hc
                    · rw [if_neg h5] at h; exact Option.noConfusion h
            · rw [if_neg h6] at h
              by_cases h9 : b < 0xF5
              · rw [if_pos h9] at h
                by_cases h4 : rest.length < 3
                · rw [if_pos h4] at h; exact Option.noConfusion h
                · rw [if_neg h4] at h
                  cases rest with
                  | nil => simp at h4
                  | cons b1 rest1 =>
                    cases rest1 with
                    | nil => simp at h4
                    | cons b2 rest2 =>
                      cases rest2 with
                      | nil => simp at h4
                      | cons b3 rest3 =>
                        simp only [List.getD_cons_zero, List.getD_cons_succ,
                          List.drop_succ_cons, List.drop_zero] at h
                        by_cases h5 : (0x80 ≤ b1 ∧ b1 < 0xC0) ∧ (0x80 ≤ b2 ∧ b2 < 0xC0) ∧
                            (0x80 ≤ b3 ∧ b3 < 0xC0)
                        · rw [if_pos h5] at h
                          obtain ⟨h5a, h5b, h5c⟩ := h5
                          by_cases h7 : (b - 0xF0) * 0x40000 + (b1 - 0x80) * 0x1000 +
                              (b2 - 0x80) * 0x40 + (b3 - 0x80) < 0x10000
                          · rw [if_pos h7] at h; exact Option.noConfusion h
                          · rw [if_neg h7] at h
                            by_cases h8 : 0x10FFFF < (b - 0xF0) * 0x40000 +
                                (b1 - 0x80) * 0x1000 + (b2 - 0x80) * 0x40 + (b3 - 0x80)
                            · rw [if_pos h8] at h; exact Option.noConfusion h
                            · rw [if_neg h8] at h
                              obtain ⟨s1, hs1, hmap⟩ := Option.map_eq_some'.mp h
                              obtain ⟨henc1, hval1⟩ := ih rest3 s1 hs1
                              subst hmap
                              refine ⟨utf8Encode_cons_eq _ s1 [b, b1, b2, b3] ?_ rest3 henc1,
                                ?_⟩
                              · unfold encodeCp
                                rw [if_neg (by omega), if_neg (by omega), if_neg (by omega)]
                                simp only [List.cons.injEq]
                                exact ⟨by omega, by omega, by omega, by omega, trivial⟩
                              · intro c hc
                                rcases List.mem_cons.mp hc with rfl | hc
                                · unfold ValidCp; omega
                                · exact hval1 c hc
                        · rw [if_neg h5] at h; exact Option.noConfusion h
              · rw [if_neg h9] at h; exact Option.noConfusion h

theorem utf8_decode_sound (bs s : List Nat) (h : utf8Decode bs = some s) :
    utf8Encode s = bs ∧ ∀ c ∈ s, ValidCp c :=
  utf8DecodeF_sound bs.length bs s h

/-- C6: whenever the Fetcher returns, the returned hash is the SHA-256
hex digest of the exact raw bytes (the text component plays no role in
it), and the Fetcher fails with the decode error precisely when the raw
bytes are not valid UTF-8, i.e. are not the UTF-8 encoding of any
sequence of Unicode scalar values. -/
theorem C6_fetcher_hash_and_decode (raw : List Nat) :
    (∀ content hsh, get_file_content raw = .ok (content, hsh) →
      hsh = sha256hex raw ∧ utf8Decode raw = some content) ∧
    (get_file_content raw = .error .decodeErr ↔
      ¬ ∃ s, (∀ c ∈ s, ValidCp c) ∧ utf8Encode s = raw) := by
  constructor
  · intro content hsh h
    unfold get_file_content at h
    cases hd : utf8Decode raw with
    | some s =>
      rw [hd] at h
      injection h with h2
      injection h2 with h3 h4
      exact ⟨h4.symm, congrArg some h3⟩

    | none =>
      rw [hd] at h
      exact Except.noConfusion h
  · constructor
    · intro h hex
      obtain ⟨s, hv, henc⟩ := hex
      have hd : utf8Decode raw = some s := by
        rw [← henc]
        exact utf8_decode_encode s hv
      unfold get_file_content at h
      rw [hd] at h
      exact Except.noConfusion h
    · intro hne
      unfold get_file_content
      cases hd : utf8Decode raw with
      | some s =>
        exfalso
        apply hne
        obtain ⟨henc, hv⟩ := utf8_decode_sound raw s hd
        exact ⟨s, hv, henc⟩
      | none => rfl

/-- Witness for C6: on the two-byte ASCII input the Fetcher succeeds and
the theorem yields the digest and decode facts. -/
theorem C6_fetcher_hash_and_decode_witness :
    get_file_content [104, 105] = .ok ([104, 105], sha256hex [104, 105]) ∧
    (sha256hex [104, 105] = sha256hex [104, 105] ∧
      utf8Decode [104, 105] = some [104, 105]) :=
  ⟨rfl, (C6_fetcher_hash_and_decode [104, 105]).1 [104, 105] (sha256hex [104, 105]) rfl⟩

theorem mem_applyActions_uploads (acts : List S3Action) :
    ∀ keys k, (∀ a ∈ acts, ∃ k2 e2, a = S3Action.upload k2 e2) →
      (k ∈ keys ∨ ∃ e, S3Action.upload k e ∈ acts) → k ∈ applyActions keys acts := by
  induction acts with
  | nil =>
    intro keys k _ h
    rcases h with h | ⟨e, he⟩
    · exact h
    · simp at he
  | cons a acts ih =>
    intro keys k hall h
    obtain ⟨k2, e2, rfl⟩ := hall a (by simp)
    have hstep : applyActions keys (S3Action.upload k2 e2 :: acts) =
        applyActions (applyAction keys (S3Action.upload k2 e2)) acts := by
      simp [applyActions]
    have hsub : ∀ k3, k3 ∈ keys → k3 ∈ applyAction keys (S3Action.upload k2 e2) := by
      intro k3 hk3
      simp only [applyAction]
      by_cases hmem : k2 ∈ keys
      · rw [if_pos hmem]; exact hk3
      · rw [if_neg hmem]; exact List.mem_append_left _ hk3
    have htail : ∀ a2 ∈ acts, ∃ k3 e3, a2 = S3Action.upload k3 e3 :=
      fun a2 ha2 => hall a2 (List.mem_cons_of_mem _ ha2)
    rw [hstep]
    rcases h with hk | ⟨e, he⟩
    · exact ih _ k htail (Or.inl (hsub k hk))
    · rcases List.mem_cons.mp he with heq | he2
      · injection heq with hk2 _
        subst hk2
        refine ih _ k htail (Or.inl ?_)
        simp only [applyAction]
        by_cases hmem : k ∈ keys
        · rw [if_pos hmem]; exact hmem
        · rw [if_neg hmem]; exact List.mem_append_right _ (by simp)
      · exact ih _ k htail (Or.inr ⟨e, he2⟩)

theorem hasPfx_append_self (a t : Str) : hasPfx a (a ++ t) = true :=
  (hasPfx_iff a (a ++ t)).mpr ⟨t, rfl⟩

/-- C8 (amended): a run that completes and staged at least one
attachment with an ordinary (non-absolute) filename makes any replay of
the same content stop at the Deduplicator: the folder key written by the
first run embeds the 8-character hash prefix under the write prefix.
(The original claim, for every successfully processed email, fails when
no attachment was staged: then nothing embedding the hash is uploaded.) -/
theorem C8_replay_duplicate (bucketKeys : List Str) (msg : EmailMessage) (hsh ts ts2 : Str)
    (keys2 : List Str) (files : List (Str × List Nat))
    (hts : ts.head? ≠ some '/')
    (hrun : main_run bucketKeys msg hsh ts = .done keys2 files)
    (hfc : ∃ fc ∈ files, hasPfx ['/'] fc.1 = false) :
    main_run keys2 msg hsh ts2 = .duplicate := by
  unfold main_run at hrun
  by_cases hchk : check_if_hash_has_been_seen hsh (listKeys bucketKeys writePfxC) = true
  · rw [if_pos hchk] at hrun
    exact RunOutcome.noConfusion hrun
  · rw [if_neg hchk] at hrun
    cases hp : parse_email_from_s3 msg with
    | exited hname actual =>
      rw [hp] at hrun
      exact RunOutcome.noConfusion hrun
    | staged files0 =>
      rw [hp] at hrun
      injection hrun with hkeys hfiles
      subst hkeys
      obtain ⟨fc, hfcmem, hfcslash⟩ := hfc
      rw [← hfiles] at hfcmem
      have hfold : hasPfx ['/'] (ts ++ '-' :: hsh.take 8) = false := by
        cases ts with
        | nil => simp [hasPfx]
        | cons c crest =>
          have hc : c ≠ '/' := by
            intro hcc
            exact hts (by rw [hcc]; rfl)
          simp only [List.cons_append, hasPfx, Bool.and_eq_false_iff]
          left
          rw [beq_eq_false_iff_ne]
          exact fun hcc => hc hcc.symm
      have hjoin1 : joinPath writePfxC (ts ++ '-' :: hsh.take 8) =
          writePfxC ++ (ts ++ '-' :: hsh.take 8) := by
        unfold joinPath
        rw [if_neg (by rw [hfold]; exact Bool.false_ne_true), if_neg (by decide),
          if_pos (by decide)]
      have hwrite : writePfxC = 'a' :: "ttachments/".data := by decide
      obtain ⟨tl, hkeyeq⟩ : ∃ tl, joinPath (joinPath writePfxC (ts ++ '-' :: hsh.take 8)) fc.1 =
          writePfxC ++ ((ts ++ '-' :: hsh.take 8) ++ tl) := by
        rw [hjoin1]
        unfold joinPath
        rw [if_neg (by rw [hfcslash]; exact Bool.false_ne_true),
          if_neg (by rw [hwrite]; simp)]
        by_cases hlast : (writePfxC ++ (ts ++ '-' :: hsh.take 8)).getLast? = some '/'
        · rw [if_pos hlast]
          exact ⟨fc.1, by rw [List.append_assoc]⟩
        · rw [if_neg hlast]
          exact ⟨'/' :: fc.1, by rw [List.append_assoc]⟩
      have hup : S3Action.upload (joinPath (joinPath writePfxC (ts ++ '-' :: hsh.take 8)) fc.1)
          ⟨[], fc.1⟩ ∈ walkUploads writePfxC (stagingEntries files0) hsh ts := by
        unfold walkUploads
        refine List.mem_map.mpr ⟨⟨[], fc.1⟩, ?_, rfl⟩
        exact List.mem_map.mpr ⟨fc, hfcmem, rfl⟩
      have hkmem : joinPath (joinPath writePfxC (ts ++ '-' :: hsh.take 8)) fc.1 ∈
          applyActions bucketKeys
          (upload_attachments_to_s3 bucketKeys writePfxC (stagingEntries files0) hsh ts) := by
        unfold upload_attachments_to_s3 applyActions
        rw [List.foldl_append]
        refine mem_applyActions_uploads _ _ _ ?_ (Or.inr ⟨⟨[], fc.1⟩, hup⟩)
        intro a ha
        unfold walkUploads at ha
        obtain ⟨e2, _, heq⟩ := List.mem_map.mp ha
        exact ⟨_, e2, heq.symm⟩
      have hklist : joinPath (joinPath writePfxC (ts ++ '-' :: hsh.take 8)) fc.1 ∈
          listKeys (applyActions bucketKeys
          (upload_attachments_to_s3 bucketKeys writePfxC (stagingEntries files0) hsh ts))
          writePfxC := by
        unfold listKeys
        refine List.mem_filter.mpr ⟨hkmem, ?_⟩
        rw [hkeyeq]
        exact hasPfx_append_self writePfxC ((ts ++ '-' :: hsh.take 8) ++ tl)
      have hsubstr : containsSub (hsh.take 8)
          (joinPath (joinPath writePfxC (ts ++ '-' :: hsh.take 8)) fc.1) = true := by
        refine (containsSub_iff (hsh.take 8) _).mpr ⟨writePfxC ++ ts ++ ['-'], tl, ?_⟩
        rw [hkeyeq]
        simp [List.append_assoc]
      have hdup : check_if_hash_has_been_seen hsh (listKeys (applyActions bucketKeys
          (upload_attachments_to_s3 bucketKeys writePfxC (stagingEntries files0) hsh ts))
          writePfxC) = true := by
        unfold check_if_hash_has_been_seen
        exact List.any_eq_true.mpr
          ⟨joinPath (joinPath writePfxC (ts ++ '-' :: hsh.take 8)) fc.1, hklist, hsubstr⟩
      unfold main_run
      rw [if_pos hdup]

/-- Counterexample to C8 as stated: an email with no attachments is
processed successfully (done, empty staging), uploads nothing, and so
replaying the exact same content is processed again rather than being
detected as a duplicate (the second run is also done, not duplicate). -/
theorem C8_empty_replay_not_detected :
    main_run [] msgC8empty "0123456789abcdef".data "20240101-000000_UTC".data =
      .done [] [] ∧
    main_run [] msgC8empty "0123456789abcdef".data "20240101-000100_UTC".data =
      .done [] [] := by
  constructor <;> decide

/-- Witness for C8: a first run on `msgC8att` completes with one staged
attachment and the theorem makes the replay stop as a duplicate. -/
theorem C8_replay_duplicate_witness :
    ("20240101-000000_UTC".data : Str).head? ≠ some '/' ∧
    main_run [] msgC8att "0123456789abcdef".data "20240101-000000_UTC".data =
      .done keysC8 filesC8 ∧
    (∃ fc ∈ filesC8, hasPfx ['/'] fc.1 = false) ∧
    main_run keysC8 msgC8att "0123456789abcdef".data "20240102-000000_UTC".data =
      .duplicate :=
  ⟨by decide, by decide, by decide,
   C8_replay_duplicate [] msgC8att "0123456789abcdef".data "20240101-000000_UTC".data
     "20240102-000000_UTC".data keysC8 filesC8 (by decide) (by decide) (by decide)⟩

end ParseMessages
